import Mathlib

/-!
Verification of the pre-tool-use security hook of the orange-hill-engineering
plugin (src/plugins/orange-hill-engineering/hooks/pre_tool_use.py).

The hook reads one JSON request from standard input, approves every non-Bash
tool invocation, and blocks Bash commands matching one of eight dangerous
`rm` regex patterns (first match wins); any raised exception is converted into
an approval carrying a "Hook error: ..." warning.

The eight patterns only use three regex constructs: literal characters
(compared case-insensitively, per `re.IGNORECASE`), `\s+`, and `.*`.  The
embedding therefore models a pattern as a list of tokens of those three kinds
and `re.search` as a backtracking matcher tried at every start position.
Literal matching models the complete CPython `re.IGNORECASE` equivalence for
the ASCII literals the patterns consist of, including the non-ASCII
characters CPython folds into ASCII letters (dotless and dotted capital i,
long s, the Kelvin sign).
-/

namespace PreToolUse

/-- Unicode code points matched by the Python regex class `\s` on `str`
patterns: `\t \n \v \f \r`, the file/group/record/unit separators, space,
next line, no-break space, and the Unicode space separators. -/
def pyWsCodes : List Nat :=
  [9, 10, 11, 12, 13, 28, 29, 30, 31, 32, 133, 160, 5760,
   8192, 8193, 8194, 8195, 8196, 8197, 8198, 8199, 8200, 8201, 8202,
   8232, 8233, 8239, 8287, 12288]

/-- Does `c` match the Python regex class `\s`? -/
def isPyWs (c : Char) : Bool := pyWsCodes.contains c.toNat

/-- One token of the regex fragment used by the hook's patterns: a literal
character (matched case-insensitively, modelling `re.IGNORECASE`), `\s+`,
or `.*`. -/
inductive Tok where
  | lit (c : Char)
  | wsPlus
  | dotStar
deriving DecidableEq, Repr

/-- The literal tokens of a run of plain pattern characters. -/
def strToks (s : String) : List Tok := s.data.map Tok.lit

/-- CPython `re.IGNORECASE` literal matching on `str` subjects (no `re.ASCII`
flag), for the ASCII pattern literals the hook uses: the input character `x`
matches the pattern literal `c` iff the Unicode simple lowercase of `x` lies
in the ignorecase equivalence class of the lowercase of `c`.  For an ASCII
literal that class is the pair of ASCII case variants (folded here by
`Char.toLower`) plus the only non-ASCII characters CPython folds into ASCII:
dotless i U+0131 and capital dotted I U+0130 for `i`, long s U+017F for `s`,
and the Kelvin sign U+212A for `k`. -/
def litMatches (c x : Char) : Bool :=
  (x.toLower == c.toLower)
  || (c.toLower == 'i' && (x.toNat == 0x131 || x.toNat == 0x130))
  || (c.toLower == 's' && x.toNat == 0x17F)
  || (c.toLower == 'k' && x.toNat == 0x212A)

/-- Backtracking matcher: does some prefix of `xs` match the whole token list?
Literals compare via `litMatches` (CPython `re.IGNORECASE`), `\s+` consumes
one or more `\s` characters, and `.*` consumes any run of characters other
than `'\n'`.  The fuel argument makes the recursion structural; every
recursive call lowers `ts.length + xs.length`, so fuel
`ts.length + xs.length + 1` is always enough (see `matchAux_iff_tokSpec`). -/
def matchAux : Nat → List Tok → List Char → Bool
  | 0, _, _ => false
  | _ + 1, [], _ => true
  | _ + 1, Tok.lit _ :: _, [] => false
  | n + 1, Tok.lit c :: ts, x :: xs =>
      litMatches c x && matchAux n ts xs
  | _ + 1, Tok.wsPlus :: _, [] => false
  | n + 1, Tok.wsPlus :: ts, x :: xs =>
      isPyWs x && (matchAux n ts xs || matchAux n (Tok.wsPlus :: ts) xs)
  | n + 1, Tok.dotStar :: ts, [] => matchAux n ts []
  | n + 1, Tok.dotStar :: ts, x :: xs =>
      matchAux n ts (x :: xs) || ((x != '\n') && matchAux n (Tok.dotStar :: ts) xs)

/-- Does the token list match at the start of `xs`? -/
def matchTokens (ts : List Tok) (xs : List Char) : Bool :=
  matchAux (ts.length + xs.length + 1) ts xs

/-- Does the token list match at some position of `xs`?  Models `re.search`,
which tries every start position. -/
def searchAux (ts : List Tok) : List Char → Bool
  | [] => matchTokens ts []
  | x :: xs => matchTokens ts (x :: xs) || searchAux ts xs

/-- Model of `re.search(pattern, command, re.IGNORECASE) is not None`. -/
def reSearch (ts : List Tok) (s : String) : Bool := searchAux ts s.data

/-- One entry of `DANGEROUS_RM_PATTERNS`: the raw regex text (interpolated into
the block reason) together with its token-list semantics. -/
structure PatternRule where
  text : String
  toks : List Tok
deriving DecidableEq, Repr

/-- Pattern 1, regex `rm\s+-rf\s+/`. -/
def patRmRfRoot : PatternRule :=
  ⟨"rm\\s+-rf\\s+/",
   strToks "rm" ++ [Tok.wsPlus] ++ strToks "-rf" ++ [Tok.wsPlus] ++ strToks "/"⟩

/-- Pattern 2, regex `rm\s+-rf\s+~`. -/
def patRmRfHome : PatternRule :=
  ⟨"rm\\s+-rf\\s+~",
   strToks "rm" ++ [Tok.wsPlus] ++ strToks "-rf" ++ [Tok.wsPlus] ++ strToks "~"⟩

/-- Pattern 3, regex `rm\s+-rf\s+\$HOME`. -/
def patRmRfHomeVar : PatternRule :=
  ⟨"rm\\s+-rf\\s+\\$HOME",
   strToks "rm" ++ [Tok.wsPlus] ++ strToks "-rf" ++ [Tok.wsPlus] ++ strToks "$HOME"⟩

/-- Pattern 4, regex `rm\s+-rf\s+\.\.`. -/
def patRmRfParent : PatternRule :=
  ⟨"rm\\s+-rf\\s+\\.\\.",
   strToks "rm" ++ [Tok.wsPlus] ++ strToks "-rf" ++ [Tok.wsPlus] ++ strToks ".."⟩

/-- Pattern 5, regex `rm\s+-rf\s+\*`. -/
def patRmRfStar : PatternRule :=
  ⟨"rm\\s+-rf\\s+\\*",
   strToks "rm" ++ [Tok.wsPlus] ++ strToks "-rf" ++ [Tok.wsPlus] ++ strToks "*"⟩

/-- Pattern 6, regex `rm\s+-rf\s+\.`. -/
def patRmRfDot : PatternRule :=
  ⟨"rm\\s+-rf\\s+\\.",
   strToks "rm" ++ [Tok.wsPlus] ++ strToks "-rf" ++ [Tok.wsPlus] ++ strToks "."⟩

/-- Pattern 7, regex `rm\s+-r\s+-f\s+/`. -/
def patRmRF : PatternRule :=
  ⟨"rm\\s+-r\\s+-f\\s+/",
   strToks "rm" ++ [Tok.wsPlus] ++ strToks "-r" ++ [Tok.wsPlus] ++ strToks "-f"
     ++ [Tok.wsPlus] ++ strToks "/"⟩

/-- Pattern 8, regex `rm\s+--recursive.*/`. -/
def patRmRecursive : PatternRule :=
  ⟨"rm\\s+--recursive.*/",
   strToks "rm" ++ [Tok.wsPlus] ++ strToks "--recursive" ++ [Tok.dotStar]
     ++ strToks "/"⟩

/-- The module constant `DANGEROUS_RM_PATTERNS`, in source order. -/
def DANGEROUS_RM_PATTERNS : List PatternRule :=
  [patRmRfRoot, patRmRfHome, patRmRfHomeVar, patRmRfParent,
   patRmRfStar, patRmRfDot, patRmRF, patRmRecursive]

/-- Model of `check_dangerous_command`: scan the pattern list in order and
report the first match, interpolating its pattern text into the reason. -/
def check_dangerous_command (command : String) : Bool × String :=
  match DANGEROUS_RM_PATTERNS.find? (fun p => reSearch p.toks command) with
  | some p => (true, "Blocked dangerous rm command matching: " ++ p.text)
  | none => (false, "")

/-- JSON values, modelling the result of `json.loads`.  An `obj` holds the
entries of the resulting Python dict (keys unique, duplicates already resolved
by the parser). -/
inductive Json where
  | null
  | bool (b : Bool)
  | num (n : Int)
  | str (s : String)
  | arr (elems : List Json)
  | obj (fields : List (String × Json))

/-- The exceptions `main` can raise: `json.loads` on invalid input,
`.get` on a value that is not a dict, and `re.search` on a non-string. -/
inductive Fault where
  | jsonDecodeError
  | attributeError
  | typeError
deriving DecidableEq, Repr

/-- Representative rendering of Python's `str(e)` for each fault class.  The
actual Python text carries input-dependent detail; the hook only ever embeds it
after the fixed prefix "Hook error: ", which is all the spec relies on. -/
def faultMessage : Fault → String
  | Fault.jsonDecodeError => "Expecting value: line 1 column 1 (char 0)"
  | Fault.attributeError => "object has no attribute get"
  | Fault.typeError => "expected string or bytes-like object"

/-- The hook's output record. -/
inductive Decision where
  | approved (warning : Option String)
  | blocked (reason : String)
deriving DecidableEq, Repr

/-- Dictionary lookup with default, modelling Python's `dict.get(key, dflt)`. -/
def lookupD (fields : List (String × Json)) (key : String) (dflt : Json) : Json :=
  ((fields.find? (fun kv => kv.fst == key)).map Prod.snd).getD dflt

/-- Model of `value.get(key, dflt)`: succeeds on a dict, raises
`AttributeError` on every other value. -/
def pyGet (j : Json) (key : String) (dflt : Json) : Except Fault Json :=
  match j with
  | Json.obj fields => Except.ok (lookupD fields key dflt)
  | _ => Except.error Fault.attributeError

/-- Model of Python `==` between an arbitrary value and a string literal:
true exactly when the value is that string. -/
def Json.eqStr : Json → String → Bool
  | Json.str s, t => s == t
  | _, _ => false

/-- Model of passing a value to `re.search` as the subject: any non-string
raises `TypeError`. -/
def asPyStr : Json → Except Fault String
  | Json.str s => Except.ok s
  | _ => Except.error Fault.typeError

/-- Model of the body of `main` (the `try` block).  `stdin = none` models
standard input that is not valid JSON (`json.loads` raises); `Except.error`
models a raised exception escaping the block. -/
def runMain : Option Json → Except Fault Decision
  | none => Except.error Fault.jsonDecodeError
  | some input_data =>
    match pyGet input_data "tool_name" (Json.str "") with
    | Except.error e => Except.error e
    | Except.ok tool_name =>
      match pyGet input_data "tool_input" (Json.obj []) with
      | Except.error e => Except.error e
      | Except.ok tool_input =>
        if tool_name.eqStr "Bash" then
          match pyGet tool_input "command" (Json.str "") with
          | Except.error e => Except.error e
          | Except.ok command =>
            match asPyStr command with
            | Except.error e => Except.error e
            | Except.ok commandStr =>
              match check_dangerous_command commandStr with
              | (is_dangerous, reason) =>
                if is_dangerous then Except.ok (Decision.blocked reason)
                else Except.ok (Decision.approved none)
        else
          Except.ok (Decision.approved none)

/-- Top-level model of `main`: the `except Exception` handler converts any
fault into an approval carrying a "Hook error: ..." warning. -/
def evaluate (stdin : Option Json) : Decision :=
  match runMain stdin with
  | Except.ok d => d
  | Except.error e => Decision.approved (some ("Hook error: " ++ faultMessage e))

/-- Two successive runs of the hook on the same input (the embedding is a pure
function of the request, mirroring the hook's lack of mutable state). -/
def evalTwice (stdin : Option Json) : Decision × Decision :=
  (evaluate stdin, evaluate stdin)

/-- The canonical Bash tool request carrying the given command string. -/
def bashRequest (command : String) : Json :=
  Json.obj [("tool_name", Json.str "Bash"),
            ("tool_input", Json.obj [("command", Json.str command)])]


/-- Declarative semantics of a token list matching a prefix of `xs`. -/
def TokSpec : List Tok → List Char → Prop
  | [], _ => True
  | Tok.lit c :: ts, xs =>
      ∃ x tail, xs = x :: tail ∧ litMatches c x = true ∧ TokSpec ts tail
  | Tok.wsPlus :: ts, xs =>
      ∃ w tail, xs = w ++ tail ∧ w ≠ [] ∧ (∀ c ∈ w, isPyWs c = true) ∧ TokSpec ts tail
  | Tok.dotStar :: ts, xs =>
      ∃ m tail, xs = m ++ tail ∧ '\n' ∉ m ∧ TokSpec ts tail

/-- Declarative semantics of `re.search`: the token list matches at some
position, i.e. a prefix of some split-off suffix. -/
def SearchSpec (ts : List Tok) (xs : List Char) : Prop :=
  ∃ pre post, xs = pre ++ post ∧ TokSpec ts post

/-- With fuel above the combined length, the fuel-based matcher agrees with the
declarative semantics. -/
theorem matchAux_iff_tokSpec :
    ∀ (n : Nat) (ts : List Tok) (xs : List Char),
      ts.length + xs.length < n → (matchAux n ts xs = true ↔ TokSpec ts xs) := by
  intro n
  induction n with
  | zero => intro ts xs h; omega
  | succ n ih =>
    intro ts xs h
    match ts, xs with
    | [], xs => simp [matchAux, TokSpec]
    | Tok.lit c :: ts, [] =>
      simp [matchAux, TokSpec]
    | Tok.lit c :: ts, x :: xs =>
      simp only [List.length_cons] at h
      rw [TokSpec]
      simp only [matchAux, Bool.and_eq_true, beq_iff_eq]
      rw [ih ts xs (by omega)]
      constructor
      · rintro ⟨h1, h2⟩; exact ⟨x, xs, rfl, h1, h2⟩
      · rintro ⟨a, tail, heq, h1, h2⟩
        cases heq; exact ⟨h1, h2⟩
    | Tok.wsPlus :: ts, [] =>
      rw [TokSpec]
      constructor
      · intro hfalse; simp [matchAux] at hfalse
      · rintro ⟨w, tail, heq, hne, -, -⟩
        exact absurd (List.append_eq_nil.mp heq.symm).1 hne
    | Tok.wsPlus :: ts, x :: xs =>
      simp only [List.length_cons] at h
      rw [TokSpec]
      simp only [matchAux, Bool.and_eq_true, Bool.or_eq_true]
      rw [ih ts xs (by omega), ih (Tok.wsPlus :: ts) xs (by simp; omega)]
      constructor
      · rintro ⟨hx, hrest | hrest⟩
        · exact ⟨[x], xs, rfl, by simp, by simpa using hx, hrest⟩
        · rw [TokSpec] at hrest
          obtain ⟨w, tail, heq, hne, hws, hts⟩ := hrest
          refine ⟨x :: w, tail, by rw [heq]; rfl, by simp, ?_, hts⟩
          intro c hc
          rcases List.mem_cons.mp hc with rfl | hc
          · exact hx
          · exact hws c hc
      · rintro ⟨w, tail, heq, hne, hws, hts⟩
        rcases w with _ | ⟨a, w⟩
        · exact absurd rfl hne
        · rw [List.cons_append] at heq
          injection heq with h1 h2
          subst h1
          refine ⟨hws x (by simp), ?_⟩
          rcases w with _ | ⟨b, w⟩
          · rw [List.nil_append] at h2
            subst h2
            exact Or.inl hts
          · right
            rw [TokSpec]
            exact ⟨b :: w, tail, h2, by simp,
                   fun c hc => hws c (List.mem_cons_of_mem _ hc), hts⟩
    | Tok.dotStar :: ts, [] =>
      simp only [List.length_cons] at h
      rw [TokSpec]
      simp only [matchAux]
      rw [ih ts [] (by omega)]
      constructor
      · intro hts; exact ⟨[], [], by simp, by simp, hts⟩
      · rintro ⟨m, tail, heq, -, hts⟩
        obtain ⟨rfl, rfl⟩ := List.append_eq_nil.mp heq.symm
        exact hts
    | Tok.dotStar :: ts, x :: xs =>
      simp only [List.length_cons] at h
      rw [TokSpec]
      simp only [matchAux, Bool.or_eq_true, Bool.and_eq_true, bne_iff_ne, ne_eq]
      rw [ih ts (x :: xs) (by simp; omega), ih (Tok.dotStar :: ts) xs (by simp; omega)]
      constructor
      · rintro (hts | ⟨hnl, hrest⟩)
        · exact ⟨[], x :: xs, by simp, by simp, hts⟩
        · rw [TokSpec] at hrest
          obtain ⟨m, tail, heq, hm, hts⟩ := hrest
          refine ⟨x :: m, tail, by rw [heq]; rfl, ?_, hts⟩
          simp only [List.mem_cons, not_or]
          exact ⟨fun hx => hnl hx.symm, hm⟩
      · rintro ⟨m, tail, heq, hm, hts⟩
        rcases m with _ | ⟨a, m⟩
        · rw [List.nil_append] at heq
          subst heq
          exact Or.inl hts
        · rw [List.cons_append] at heq
          injection heq with h1 h2
          subst h1
          right
          refine ⟨fun hx => hm (by simp [hx]), ?_⟩
          rw [TokSpec]
          exact ⟨m, tail, h2, fun hmem => hm (List.mem_cons_of_mem _ hmem), hts⟩

/-- The matcher (at its canonical fuel) agrees with the declarative
semantics. -/
theorem matchTokens_iff_tokSpec (ts : List Tok) (xs : List Char) :
    matchTokens ts xs = true ↔ TokSpec ts xs :=
  matchAux_iff_tokSpec (ts.length + xs.length + 1) ts xs (by omega)

/-- Matching a prefix is preserved by extending the subject on the right. -/
theorem TokSpec.append_right :
    ∀ (ts : List Tok) (xs ext : List Char), TokSpec ts xs → TokSpec ts (xs ++ ext) := by
  intro ts
  induction ts with
  | nil => intro xs ext _; trivial
  | cons t ts ih =>
    intro xs ext hspec
    cases t with
    | lit c =>
      obtain ⟨x, tail, rfl, hx, hts⟩ := hspec
      exact ⟨x, tail ++ ext, rfl, hx, ih tail ext hts⟩
    | wsPlus =>
      obtain ⟨w, tail, rfl, hne, hws, hts⟩ := hspec
      exact ⟨w, tail ++ ext, by rw [List.append_assoc], hne, hws, ih tail ext hts⟩
    | dotStar =>
      obtain ⟨m, tail, rfl, hm, hts⟩ := hspec
      exact ⟨m, tail ++ ext, by rw [List.append_assoc], hm, ih tail ext hts⟩

/-- The position-scanning loop agrees with the declarative search
semantics. -/
theorem searchAux_iff_searchSpec (ts : List Tok) :
    ∀ xs : List Char, searchAux ts xs = true ↔ SearchSpec ts xs := by
  intro xs
  induction xs with
  | nil =>
    rw [searchAux, matchTokens_iff_tokSpec]
    constructor
    · intro hts; exact ⟨[], [], rfl, hts⟩
    · rintro ⟨pre, post, heq, hts⟩
      obtain ⟨rfl, rfl⟩ := List.append_eq_nil.mp heq.symm
      exact hts
  | cons x xs ih =>
    rw [searchAux]
    simp only [Bool.or_eq_true]
    rw [matchTokens_iff_tokSpec, ih]
    constructor
    · rintro (hts | ⟨pre, post, heq, hts⟩)
      · exact ⟨[], x :: xs, rfl, hts⟩
      · exact ⟨x :: pre, post, by rw [heq]; rfl, hts⟩
    · rintro ⟨pre, post, heq, hts⟩
      rcases pre with _ | ⟨a, pre⟩
      · rw [List.nil_append] at heq
        subst heq
        exact Or.inl hts
      · rw [List.cons_append] at heq
        injection heq with h1 h2
        exact Or.inr ⟨pre, post, h2, hts⟩

/-- A run of literal tokens matches exactly a block of characters related
pointwise to the pattern characters by `litMatches`. -/
theorem tokSpec_lits :
    ∀ (cs : List Char) (ts : List Tok) (xs : List Char),
      TokSpec (cs.map Tok.lit ++ ts) xs ↔
        ∃ w tail, xs = w ++ tail ∧
          List.Forall₂ (fun c x => litMatches c x = true) cs w ∧
          TokSpec ts tail := by
  intro cs
  induction cs with
  | nil =>
    intro ts xs
    constructor
    · intro h; exact ⟨[], xs, rfl, List.Forall₂.nil, h⟩
    · rintro ⟨w, tail, heq, hf, hts⟩
      obtain rfl := List.forall₂_nil_left_iff.mp hf
      rw [List.nil_append] at heq
      subst heq
      exact hts
  | cons c cs ih =>
    intro ts xs
    rw [List.map_cons, List.cons_append, TokSpec]
    constructor
    · rintro ⟨x, tail0, rfl, hx, hrest⟩
      obtain ⟨w, tail, rfl, hw, hts⟩ := (ih ts tail0).mp hrest
      exact ⟨x :: w, tail, rfl, List.Forall₂.cons hx hw, hts⟩
    · rintro ⟨w, tail, heq, hw, hts⟩
      rcases hw with _ | ⟨hx, hw⟩
      · rename_i x w
        rw [List.cons_append] at heq
        exact ⟨x, w ++ tail, heq, hx,
               (ih ts (w ++ tail)).mpr ⟨w, tail, rfl, hw, hts⟩⟩

/-- Characters are determined by their code points. -/
theorem char_toNat_inj {a b : Char} (h : a.toNat = b.toNat) : a = b :=
  Char.ext (UInt32.ext h)

/-- Either `Char.toLower` shifts an upper-case ASCII letter down by 32, or it
leaves the character unchanged. -/
theorem toLower_cases (c : Char) :
    (65 ≤ c.toNat ∧ c.toNat ≤ 90 ∧ (Char.toLower c).toNat = c.toNat + 32) ∨
      Char.toLower c = c := by
  rw [Char.toLower]
  split
  · rename_i h
    left
    refine ⟨h.1, h.2, ?_⟩
    rw [Char.ofNat, dif_pos (Or.inl (by omega))]
    rfl
  · right; rfl

/-- If the lower-cased form of `c` is a character that is neither an ASCII
lower-case letter nor anything `toLower` can produce by shifting, then `c`
already was that character. -/
theorem eq_of_toLower_eq {c t : Char} (ht : t.toNat < 97 ∨ 122 < t.toNat)
    (h : Char.toLower c = t) : c = t := by
  rcases toLower_cases c with ⟨h1, h2, h3⟩ | heq
  · rw [h] at h3
    omega
  · rw [heq] at h
    exact h

/-- Membership form of the `\\s` test. -/
theorem isPyWs_iff (c : Char) : isPyWs c = true ↔ c.toNat ∈ pyWsCodes := by
  simp [isPyWs, List.contains]

/-- ASCII case folding does not change whether a character is `\\s`
whitespace. -/
theorem isPyWs_toLower (c : Char) : isPyWs (Char.toLower c) = isPyWs c := by
  rcases toLower_cases c with ⟨h1, h2, h3⟩ | heq
  · have hc : isPyWs c = false := by
      rw [Bool.eq_false_iff, Ne, isPyWs_iff]
      simp only [pyWsCodes, List.mem_cons, List.not_mem_nil, or_false]
      omega
    have hl : isPyWs (Char.toLower c) = false := by
      rw [Bool.eq_false_iff, Ne, isPyWs_iff]
      simp only [pyWsCodes, List.mem_cons, List.not_mem_nil, or_false]
      omega
    rw [hc, hl]
  · rw [heq]

/-- Character codes above the ASCII letters are fixed points of `toLower`;
equality with such a code transfers along equal lower-cased images. -/
theorem toNat_eq_congr_of_toLower_eq {x y : Char}
    (h : Char.toLower x = Char.toLower y) (k : Nat) (hk : 122 < k) :
    x.toNat = k ↔ y.toNat = k := by
  constructor
  · intro hx
    have hfix : Char.toLower x = x := by
      rcases toLower_cases x with ⟨h1, h2, -⟩ | he
      · omega
      · exact he
    have h2 : Char.toLower y = x := by rw [← h, hfix]
    have h3 := eq_of_toLower_eq (Or.inr (by omega)) h2
    rw [h3]
    exact hx
  · intro hy
    have hfix : Char.toLower y = y := by
      rcases toLower_cases y with ⟨h1, h2, -⟩ | he
      · omega
      · exact he
    have h2 : Char.toLower x = y := by rw [h, hfix]
    have h3 := eq_of_toLower_eq (Or.inr (by omega)) h2
    rw [h3]
    exact hy

/-- `litMatches` inspects the subject only through data invariant under equal
lower-cased images (its special code points are above the ASCII letters). -/
theorem litMatches_congr (c x y : Char) (h : Char.toLower x = Char.toLower y) :
    litMatches c x = litMatches c y := by
  have e1 : (x.toNat == 0x131) = (y.toNat == 0x131) := by
    rw [Bool.eq_iff_iff, beq_iff_eq, beq_iff_eq]
    exact toNat_eq_congr_of_toLower_eq h 0x131 (by omega)
  have e2 : (x.toNat == 0x130) = (y.toNat == 0x130) := by
    rw [Bool.eq_iff_iff, beq_iff_eq, beq_iff_eq]
    exact toNat_eq_congr_of_toLower_eq h 0x130 (by omega)
  have e3 : (x.toNat == 0x17F) = (y.toNat == 0x17F) := by
    rw [Bool.eq_iff_iff, beq_iff_eq, beq_iff_eq]
    exact toNat_eq_congr_of_toLower_eq h 0x17F (by omega)
  have e4 : (x.toNat == 0x212A) = (y.toNat == 0x212A) := by
    rw [Bool.eq_iff_iff, beq_iff_eq, beq_iff_eq]
    exact toNat_eq_congr_of_toLower_eq h 0x212A (by omega)
  rw [litMatches, litMatches, h, e1, e2, e3, e4]

/-- A pattern literal that is not an ASCII letter matches only itself (its
ignorecase equivalence class is a singleton). -/
theorem litMatches_eq_of_nonletter {c x : Char} (hfix : Char.toLower c = c)
    (hc : c.toNat < 97 ∨ 122 < c.toNat) (h : litMatches c x = true) : x = c := by
  simp only [litMatches, Bool.or_eq_true, Bool.and_eq_true, beq_iff_eq] at h
  rcases h with ((h | ⟨hi, -⟩) | ⟨hs, -⟩) | ⟨hk, -⟩
  · rw [hfix] at h
    exact eq_of_toLower_eq hc h
  · rw [hfix] at hi
    subst hi
    exact absurd hc (by decide)
  · rw [hfix] at hs
    subst hs
    exact absurd hc (by decide)
  · rw [hfix] at hk
    subst hk
    exact absurd hc (by decide)

/-- A split of the image of a concatenation under a map induces a matching
split of the pre-image list. -/
theorem exists_split_of_map_eq {f : Char → Char} :
    ∀ (w rest ys : List Char), (w ++ rest).map f = ys.map f →
      ∃ w2 rest2, ys = w2 ++ rest2 ∧ w.map f = w2.map f ∧ rest.map f = rest2.map f := by
  intro w
  induction w with
  | nil =>
    intro rest ys h
    exact ⟨[], ys, rfl, rfl, h⟩
  | cons a w ih =>
    intro rest ys h
    rcases ys with _ | ⟨b, ys⟩
    · simp at h
    · rw [List.cons_append, List.map_cons, List.map_cons] at h
      injection h with h1 h2
      obtain ⟨w2, rest2, rfl, hw, hr⟩ := ih rest ys h2
      exact ⟨b :: w2, rest2, rfl, by rw [List.map_cons, List.map_cons, h1, hw], hr⟩

/-- Whitespace-only runs transfer across equality of lower-cased images. -/
theorem allWs_of_map_toLower_eq :
    ∀ (w w2 : List Char), w.map Char.toLower = w2.map Char.toLower →
      (∀ c ∈ w, isPyWs c = true) → ∀ c ∈ w2, isPyWs c = true := by
  intro w
  induction w with
  | nil =>
    intro w2 h _
    rcases w2 with _ | ⟨b, w2⟩
    · intro c hc; simp at hc
    · simp at h
  | cons a w ih =>
    intro w2 h hws
    rcases w2 with _ | ⟨b, w2⟩
    · simp at h
    · rw [List.map_cons, List.map_cons] at h
      injection h with h1 h2
      intro c hc
      rcases List.mem_cons.mp hc with rfl | hc
      · have : isPyWs (Char.toLower c) = isPyWs a := by
          rw [← h1, isPyWs_toLower]
        rw [isPyWs_toLower] at this
        rw [this]
        exact hws a (by simp)
      · exact ih w2 h2 (fun d hd => hws d (List.mem_cons_of_mem _ hd)) c hc

/-- Newline-freedom transfers across equality of lower-cased images. -/
theorem no_newline_of_map_toLower_eq {m m2 : List Char}
    (h : m.map Char.toLower = m2.map Char.toLower) (hm : '\n' ∉ m) : '\n' ∉ m2 := by
  intro hmem
  have h1 : Char.toLower '\n' ∈ m2.map Char.toLower := List.mem_map_of_mem _ hmem
  have h2 : Char.toLower '\n' = '\n' := by decide
  rw [h2, ← h] at h1
  obtain ⟨c, hc, hcl⟩ := List.mem_map.mp h1
  have : c = '\n' := eq_of_toLower_eq (by left; decide) hcl
  subst this
  exact hm hc

/-- Matching is invariant under replacing the subject by any string with the
same lower-cased image (the literal comparison, the `\s` class and the
newline test all factor through `Char.toLower`). -/
theorem TokSpec.congr_toLower :
    ∀ (ts : List Tok) (xs ys : List Char),
      xs.map Char.toLower = ys.map Char.toLower → TokSpec ts xs → TokSpec ts ys := by
  intro ts
  induction ts with
  | nil => intro xs ys _ _; trivial
  | cons t ts ih =>
    intro xs ys hmap hspec
    cases t with
    | lit c =>
      obtain ⟨x, tail, rfl, hx, hts⟩ := hspec
      rcases ys with _ | ⟨y, tail2⟩
      · simp at hmap
      · rw [List.map_cons, List.map_cons] at hmap
        injection hmap with h1 h2
        exact ⟨y, tail2, rfl, by rw [← litMatches_congr c x y h1]; exact hx,
               ih tail tail2 h2 hts⟩
    | wsPlus =>
      obtain ⟨w, tail, rfl, hne, hws, hts⟩ := hspec
      obtain ⟨w2, tail2, rfl, hw, htl⟩ := exists_split_of_map_eq w tail ys hmap
      refine ⟨w2, tail2, rfl, ?_, allWs_of_map_toLower_eq w w2 hw hws,
              ih tail tail2 htl hts⟩
      intro hnil
      subst hnil
      exact hne (List.map_eq_nil_iff.mp (by rw [hw]; rfl))
    | dotStar =>
      obtain ⟨m, tail, rfl, hm, hts⟩ := hspec
      obtain ⟨m2, tail2, rfl, hmmap, htl⟩ := exists_split_of_map_eq m tail ys hmap
      exact ⟨m2, tail2, rfl, no_newline_of_map_toLower_eq hmmap hm,
             ih tail tail2 htl hts⟩

/-- Search is invariant under replacing the subject by any string with the
same lower-cased image. -/
theorem searchAux_congr_toLower (ts : List Tok) (xs ys : List Char)
    (h : xs.map Char.toLower = ys.map Char.toLower) :
    searchAux ts xs = searchAux ts ys := by
  rw [Bool.eq_iff_iff, searchAux_iff_searchSpec, searchAux_iff_searchSpec]
  constructor
  · rintro ⟨pre, post, rfl, hts⟩
    obtain ⟨pre2, post2, rfl, hpre, hpost⟩ := exists_split_of_map_eq pre post ys h
    exact ⟨pre2, post2, rfl, TokSpec.congr_toLower ts post post2 hpost hts⟩
  · rintro ⟨pre, post, rfl, hts⟩
    obtain ⟨pre2, post2, rfl, hpre, hpost⟩ :=
      exists_split_of_map_eq pre post xs h.symm
    exact ⟨pre2, post2, rfl, TokSpec.congr_toLower ts post post2 hpost hts⟩

/-- Pointwise equal predicates find the same first element. -/
theorem find?_ext {α : Type} (p q : α → Bool) :
    ∀ l : List α, (∀ a ∈ l, p a = q a) → l.find? p = l.find? q := by
  intro l
  induction l with
  | nil => intro _; rfl
  | cons a l ih =>
    intro h
    rw [List.find?_cons, List.find?_cons, h a (by simp)]
    cases q a
    · exact ih (fun b hb => h b (List.mem_cons_of_mem _ hb))
    · rfl

/-- When entry `i` matches and no earlier entry does, `find?` returns
entry `i`. -/
theorem find?_eq_get {α : Type} (p : α → Bool) :
    ∀ (l : List α) (i : Nat) (hi : i < l.length),
      p (l.get ⟨i, hi⟩) = true →
      (∀ j (hj : j < i), p (l.get ⟨j, Nat.lt_trans hj hi⟩) = false) →
      l.find? p = some (l.get ⟨i, hi⟩) := by
  intro l
  induction l with
  | nil => intro i hi; simp at hi
  | cons a l ih =>
    intro i hi hp hfirst
    rcases i with _ | i
    · have hget : (a :: l).get ⟨0, hi⟩ = a := rfl
      rw [hget] at hp ⊢
      rw [List.find?_cons, hp]
    · have ha : p a = false := hfirst 0 (Nat.succ_pos i)
      rw [List.find?_cons, ha]
      exact ih i (Nat.lt_of_succ_lt_succ hi) hp
        (fun j hj => hfirst (j + 1) (Nat.succ_lt_succ hj))

/-- On the canonical Bash request the `try` block runs the pattern check on
the command and converts its verdict into the decision. -/
theorem runMain_bashRequest (cmd : String) :
    runMain (some (bashRequest cmd)) =
      (if (check_dangerous_command cmd).1
       then Except.ok (Decision.blocked (check_dangerous_command cmd).2)
       else Except.ok (Decision.approved none)) := by
  rfl

/-- On the canonical Bash request the decision is determined by the first
matching pattern, if any. -/
theorem evaluate_bashRequest (cmd : String) :
    evaluate (some (bashRequest cmd)) =
      match DANGEROUS_RM_PATTERNS.find? (fun p => reSearch p.toks cmd) with
      | some p =>
        Decision.blocked ("Blocked dangerous rm command matching: " ++ p.text)
      | none => Decision.approved none := by
  cases hfind : DANGEROUS_RM_PATTERNS.find? (fun p => reSearch p.toks cmd) with
  | none =>
    have h1 : check_dangerous_command cmd = (false, "") := by
      rw [check_dangerous_command, hfind]
    rw [evaluate, runMain_bashRequest, h1]
    rfl
  | some p =>
    have h1 : check_dangerous_command cmd =
        (true, "Blocked dangerous rm command matching: " ++ p.text) := by
      rw [check_dangerous_command, hfind]
    rw [evaluate, runMain_bashRequest, h1]
    rfl

/-- If any pattern of the list matches the command, the Bash request is
blocked. -/
theorem blocked_of_pattern (cmd : String) (p : PatternRule)
    (hp : p ∈ DANGEROUS_RM_PATTERNS) (h : reSearch p.toks cmd = true) :
    ∃ reason, evaluate (some (bashRequest cmd)) = Decision.blocked reason := by
  rw [evaluate_bashRequest]
  have hsome : (DANGEROUS_RM_PATTERNS.find? (fun q => reSearch q.toks cmd)).isSome := by
    rw [List.find?_isSome]
    exact ⟨p, hp, h⟩
  obtain ⟨q, hq⟩ := Option.isSome_iff_exists.mp hsome
  rw [hq]
  exact ⟨_, rfl⟩

/-- Claim C1: for every request whose `tool_name` is not exactly "Bash", the
hook returns Approved with no warning, regardless of the contents of
`tool_input` (including when it is absent or not an object). -/
theorem claim1_nonbash_approved (fields : List (String × Json))
    (h : Json.eqStr (lookupD fields "tool_name" (Json.str "")) "Bash" = false) :
    evaluate (some (Json.obj fields)) = Decision.approved none := by
  rw [evaluate, runMain]
  simp only [pyGet, h]
  rfl

/-- Witness for C1 at a concrete non-Bash request whose `tool_input` is
malformed (a string instead of an object). -/
theorem claim1_witness :
    Json.eqStr (lookupD [("tool_name", Json.str "Write"),
        ("tool_input", Json.str "oops")] "tool_name" (Json.str "")) "Bash" = false ∧
      evaluate (some (Json.obj [("tool_name", Json.str "Write"),
        ("tool_input", Json.str "oops")])) = Decision.approved none :=
  ⟨by decide, claim1_nonbash_approved _ (by decide)⟩

/-- Claim C5: whenever the body of `main` raises, the hook catches the fault
and returns Approved with a warning of the form "Hook error: ..."; it never
blocks on a fault (and, being a total function, never terminates
abnormally). -/
theorem claim5_fault_fail_open (input : Option Json) (f : Fault)
    (h : runMain input = Except.error f) :
    evaluate input = Decision.approved (some ("Hook error: " ++ faultMessage f)) ∧
      ∀ r, evaluate input ≠ Decision.blocked r := by
  refine ⟨by rw [evaluate, h], ?_⟩
  intro r hr
  rw [evaluate, h] at hr
  exact absurd hr (by simp)

/-- Witness for C5 at the concrete fault of top-level input that is not valid
JSON. -/
theorem claim5_witness :
    runMain none = Except.error Fault.jsonDecodeError ∧
      evaluate none = Decision.approved
        (some ("Hook error: " ++ faultMessage Fault.jsonDecodeError)) :=
  ⟨rfl, (claim5_fault_fail_open none Fault.jsonDecodeError rfl).1⟩

/-- Claim C8: the hook is deterministic and stateless; two runs on the same
request produce the same decision (the embedding is a pure function of the
request, mirroring the absence of mutable state in the source). -/
theorem claim8_deterministic (input : Option Json) :
    (evalTwice input).1 = (evalTwice input).2 := rfl

/-- Claim C9: the reordered combined flags `-fr` slip through: the command
`rm -fr /` is approved without warning, and indeed no pattern of the list
matches it. -/
theorem claim9_fr_reordering_bypass :
    evaluate (some (bashRequest "rm -fr /")) = Decision.approved none ∧
      ∀ p ∈ DANGEROUS_RM_PATTERNS, reSearch p.toks "rm -fr /" = false := by
  constructor
  · decide
  · decide

/-- If a command contains a block of characters on which a listed pattern
already matches in full, the Bash request is blocked. -/
theorem blocked_of_contains (cmd : String) (p : PatternRule)
    (hp : p ∈ DANGEROUS_RM_PATTERNS) (core : List Char)
    (hm : matchTokens p.toks core = true)
    (h : ∃ l r, cmd.data = l ++ core ++ r) :
    ∃ reason, evaluate (some (bashRequest cmd)) = Decision.blocked reason := by
  obtain ⟨l, r, hsplit⟩ := h
  apply blocked_of_pattern cmd p hp
  rw [reSearch, hsplit, searchAux_iff_searchSpec]
  exact ⟨l, core ++ r, by rw [List.append_assoc],
         TokSpec.append_right _ _ _ ((matchTokens_iff_tokSpec _ _).mp hm)⟩

/-- Claim C2: every Bash command containing `rm -rf /` as a substring, in any
letter case and with any surrounding text, is blocked with the first
pattern's reason. -/
theorem claim2_blocks_rm_rf_slash (cmd : String) (l core r : List Char)
    (hsplit : cmd.data = l ++ core ++ r)
    (hcore : core.map Char.toLower = "rm -rf /".data) :
    evaluate (some (bashRequest cmd)) =
      Decision.blocked "Blocked dangerous rm command matching: rm\\s+-rf\\s+/" := by
  have hconcrete : TokSpec patRmRfRoot.toks ("rm -rf /".data) :=
    (matchTokens_iff_tokSpec _ _).mp (by decide)
  have hcore2 : core.map Char.toLower = "rm -rf /".data.map Char.toLower := by
    rw [hcore]; decide
  have hspec : TokSpec patRmRfRoot.toks core :=
    TokSpec.congr_toLower _ _ _ hcore2.symm hconcrete
  have hsearch : reSearch patRmRfRoot.toks cmd = true := by
    rw [reSearch, hsplit, searchAux_iff_searchSpec]
    exact ⟨l, core ++ r, by rw [List.append_assoc],
           TokSpec.append_right _ _ _ hspec⟩
  have hfind : DANGEROUS_RM_PATTERNS.find? (fun p => reSearch p.toks cmd) =
      some patRmRfRoot := by
    rw [DANGEROUS_RM_PATTERNS, List.find?_cons]
    simp only [hsearch]
  rw [evaluate_bashRequest, hfind]
  rfl

/-- Witness for C2 at the spec's concrete scenario
`rm -rf /tmp/safe && echo done` (the target merely starts with `/`). -/
theorem claim2_witness :
    "rm -rf /tmp/safe && echo done".data =
        [] ++ "rm -rf /".data ++ "tmp/safe && echo done".data ∧
      evaluate (some (bashRequest "rm -rf /tmp/safe && echo done")) =
        Decision.blocked "Blocked dangerous rm command matching: rm\\s+-rf\\s+/" :=
  ⟨by decide, claim2_blocks_rm_rf_slash _ [] ("rm -rf /".data)
      ("tmp/safe && echo done".data) (by decide) (by decide)⟩

/-- Claim C3: every Bash command containing `rm -rf ~`, `rm -rf $HOME`,
`rm -rf ..`, `rm -rf *` or `rm -rf .` as a substring is blocked. -/
theorem claim3_blocks_rm_rf_variants (cmd : String)
    (h : (∃ l r, cmd.data = l ++ "rm -rf ~".data ++ r) ∨
         (∃ l r, cmd.data = l ++ "rm -rf $HOME".data ++ r) ∨
         (∃ l r, cmd.data = l ++ "rm -rf ..".data ++ r) ∨
         (∃ l r, cmd.data = l ++ "rm -rf *".data ++ r) ∨
         (∃ l r, cmd.data = l ++ "rm -rf .".data ++ r)) :
    ∃ reason, evaluate (some (bashRequest cmd)) = Decision.blocked reason := by
  rcases h with h | h | h | h | h
  · exact blocked_of_contains cmd patRmRfHome (by decide) _ (by decide) h
  · exact blocked_of_contains cmd patRmRfHomeVar (by decide) _ (by decide) h
  · exact blocked_of_contains cmd patRmRfParent (by decide) _ (by decide) h
  · exact blocked_of_contains cmd patRmRfStar (by decide) _ (by decide) h
  · exact blocked_of_contains cmd patRmRfDot (by decide) _ (by decide) h

/-- Witness for C3 at the concrete command `echo rm -rf ~`. -/
theorem claim3_witness :
    ∃ reason, evaluate (some (bashRequest "echo rm -rf ~")) =
      Decision.blocked reason :=
  claim3_blocks_rm_rf_variants "echo rm -rf ~"
    (Or.inl ⟨"echo ".data, [], by decide⟩)

/-- Claim C4: when several rules match, the reason reports the earliest
matching rule in list order, verbatim in the form
"Blocked dangerous rm command matching: <pattern text>". -/
theorem claim4_first_match_wins (cmd : String) (i : Nat)
    (hi : i < DANGEROUS_RM_PATTERNS.length)
    (hmatch : reSearch (DANGEROUS_RM_PATTERNS.get ⟨i, hi⟩).toks cmd = true)
    (hfirst : ∀ j (hj : j < i),
      reSearch (DANGEROUS_RM_PATTERNS.get ⟨j, Nat.lt_trans hj hi⟩).toks cmd = false)
    (_hmulti : ∃ j, ∃ hj : j < DANGEROUS_RM_PATTERNS.length,
      j ≠ i ∧ reSearch (DANGEROUS_RM_PATTERNS.get ⟨j, hj⟩).toks cmd = true) :
    evaluate (some (bashRequest cmd)) =
      Decision.blocked ("Blocked dangerous rm command matching: "
        ++ (DANGEROUS_RM_PATTERNS.get ⟨i, hi⟩).text) := by
  rw [evaluate_bashRequest,
    find?_eq_get (fun p => reSearch p.toks cmd) DANGEROUS_RM_PATTERNS i hi
      hmatch hfirst]

/-- Witness for C4 at `rm -rf ..`, which matches both the `\.\.` rule
(index 3) and the `\.` rule (index 5); the reported reason is that of
index 3. -/
theorem claim4_witness :
    evaluate (some (bashRequest "rm -rf ..")) =
      Decision.blocked ("Blocked dangerous rm command matching: "
        ++ (DANGEROUS_RM_PATTERNS.get ⟨3, by decide⟩).text) :=
  claim4_first_match_wins "rm -rf .." 3 (by decide) (by decide) (by decide)
    ⟨5, by decide, by decide, by decide⟩

/-- Claim C6: pattern matching is case-insensitive; two commands with the
same lower-cased image receive the same decision. -/
theorem claim6_case_insensitive (cmd cmd2 : String)
    (h : cmd.data.map Char.toLower = cmd2.data.map Char.toLower) :
    evaluate (some (bashRequest cmd)) = evaluate (some (bashRequest cmd2)) := by
  rw [evaluate_bashRequest, evaluate_bashRequest]
  have hfind : DANGEROUS_RM_PATTERNS.find? (fun p => reSearch p.toks cmd) =
      DANGEROUS_RM_PATTERNS.find? (fun p => reSearch p.toks cmd2) :=
    find?_ext _ _ _ (fun p _ => by
      rw [reSearch, reSearch]
      exact searchAux_congr_toLower p.toks cmd.data cmd2.data h)
  rw [hfind]

/-- Witness for C6: `RM -RF /` receives the same decision as `rm -rf /`. -/
theorem claim6_witness :
    "RM -RF /".data.map Char.toLower = "rm -rf /".data.map Char.toLower ∧
      evaluate (some (bashRequest "RM -RF /")) =
        evaluate (some (bashRequest "rm -rf /")) :=
  ⟨by decide, claim6_case_insensitive "RM -RF /" "rm -rf /" (by decide)⟩

/-- Claim C10: the whitespace tolerated between the command name and the flag
tokens is the whole `\s` class, not just spaces: any non-empty `\s` runs
(tabs, newlines, ...) separating `rm`, `-rf` and `/` yield the same Blocked
decision as the space-separated form. -/
theorem claim10_whitespace_tolerance (cmd : String) (l w1 w2 r : List Char)
    (hw1 : w1 ≠ []) (hw2 : w2 ≠ [])
    (ha1 : ∀ c ∈ w1, isPyWs c = true) (ha2 : ∀ c ∈ w2, isPyWs c = true)
    (hsplit : cmd.data =
      l ++ ['r', 'm'] ++ w1 ++ ['-', 'r', 'f'] ++ w2 ++ ['/'] ++ r) :
    evaluate (some (bashRequest cmd)) =
        Decision.blocked "Blocked dangerous rm command matching: rm\\s+-rf\\s+/" ∧
      evaluate (some (bashRequest cmd)) =
        evaluate (some (bashRequest "rm -rf /")) := by
  have htoks : patRmRfRoot.toks =
      [Tok.lit 'r', Tok.lit 'm', Tok.wsPlus, Tok.lit '-', Tok.lit 'r',
       Tok.lit 'f', Tok.wsPlus, Tok.lit '/'] := by decide
  have hspec : TokSpec patRmRfRoot.toks
      ('r' :: 'm' :: (w1 ++ ('-' :: 'r' :: 'f' :: (w2 ++ ('/' :: r))))) := by
    rw [htoks]
    rw [TokSpec]
    refine ⟨'r', _, rfl, by decide, ?_⟩
    rw [TokSpec]
    refine ⟨'m', _, rfl, by decide, ?_⟩
    rw [TokSpec]
    refine ⟨w1, _, rfl, hw1, ha1, ?_⟩
    rw [TokSpec]
    refine ⟨'-', _, rfl, by decide, ?_⟩
    rw [TokSpec]
    refine ⟨'r', _, rfl, by decide, ?_⟩
    rw [TokSpec]
    refine ⟨'f', _, rfl, by decide, ?_⟩
    rw [TokSpec]
    refine ⟨w2, _, rfl, hw2, ha2, ?_⟩
    rw [TokSpec]
    refine ⟨'/', r, rfl, by decide, ?_⟩
    rw [TokSpec]
    trivial
  have hsearch : reSearch patRmRfRoot.toks cmd = true := by
    rw [reSearch, hsplit, searchAux_iff_searchSpec]
    refine ⟨l, _, ?_, hspec⟩
    simp [List.append_assoc]
  have hfind : DANGEROUS_RM_PATTERNS.find? (fun p => reSearch p.toks cmd) =
      some patRmRfRoot := by
    rw [DANGEROUS_RM_PATTERNS, List.find?_cons]
    simp only [hsearch]
  constructor
  · rw [evaluate_bashRequest, hfind]
    rfl
  · rw [evaluate_bashRequest, hfind]
    decide

/-- Witness for C10: `rm`, `-rf` and `/` separated by a tab and a newline are
blocked exactly like the space-separated form. -/
theorem claim10_witness :
    evaluate (some (bashRequest "rm\t-rf\n/")) =
        Decision.blocked "Blocked dangerous rm command matching: rm\\s+-rf\\s+/" ∧
      evaluate (some (bashRequest "rm\t-rf\n/")) =
        evaluate (some (bashRequest "rm -rf /")) :=
  claim10_whitespace_tolerance "rm\t-rf\n/" [] ['\t'] ['\n'] []
    (by decide) (by decide) (by decide) (by decide) (by decide)

/-- Counterexample to claim C7 as stated: the `--recursive` target of
`rm --recursive foo/bar` does not end in `/`, yet the command is blocked by
the long-form rule (whose regex only demands a `/` somewhere after
`--recursive`). -/
theorem claim7_counterexample :
    reSearch patRmRecursive.toks "rm --recursive foo/bar" = true ∧
      evaluate (some (bashRequest "rm --recursive foo/bar")) =
        Decision.blocked
          "Blocked dangerous rm command matching: rm\\s+--recursive.*/" :=
  ⟨by decide, by decide⟩

/-- Amended claim C7: the long-form rule fires exactly on the commands that
contain, in order, `rm`, then one or more `\s` characters, then
`--recursive` — both matched under CPython's `re.IGNORECASE` literal
equivalence `litMatches` — and a later `/` with no newline in between; the
`--recursive` target need not end in `/`. -/
theorem claim7_amended_rule8_exact (cmd : String) :
    reSearch patRmRecursive.toks cmd = true ↔
      ∃ pre c1 c2 w rcv mid post,
        cmd.data = pre ++ [c1, c2] ++ w ++ rcv ++ mid ++ '/' :: post ∧
        litMatches 'r' c1 = true ∧ litMatches 'm' c2 = true ∧
        w ≠ [] ∧ (∀ c ∈ w, isPyWs c = true) ∧
        List.Forall₂ (fun c x => litMatches c x = true) "--recursive".data rcv ∧
        '\n' ∉ mid := by
  have htoks : patRmRecursive.toks =
      ['r', 'm'].map Tok.lit ++ (Tok.wsPlus ::
        ("--recursive".data.map Tok.lit ++ [Tok.dotStar, Tok.lit '/'])) := by
    decide
  rw [reSearch, searchAux_iff_searchSpec]
  constructor
  · rintro ⟨pre, post, hcmd, hspec⟩
    rw [htoks] at hspec
    obtain ⟨w0, t0, hpost, hw0, hrest⟩ := (tokSpec_lits _ _ _).mp hspec
    rw [List.forall₂_cons_left_iff] at hw0
    obtain ⟨c1, w1, h1, hw0, rfl⟩ := hw0
    rw [List.forall₂_cons_left_iff] at hw0
    obtain ⟨c2, w2, h2, hw0, rfl⟩ := hw0
    obtain rfl := List.forall₂_nil_left_iff.mp hw0
    rw [TokSpec] at hrest
    obtain ⟨w, t1, ht0, hne, hws, hrest⟩ := hrest
    obtain ⟨rcv, t2, ht1, hrcv, hrest⟩ := (tokSpec_lits _ _ _).mp hrest
    rw [TokSpec] at hrest
    obtain ⟨mid, t3, ht2, hmid, hrest⟩ := hrest
    rw [TokSpec] at hrest
    obtain ⟨s, t4, ht3, hs, -⟩ := hrest
    obtain rfl : s = '/' := litMatches_eq_of_nonletter (by decide) (by decide) hs
    refine ⟨pre, c1, c2, w, rcv, mid, t4, ?_, h1, h2, hne, hws, hrcv, hmid⟩
    rw [hcmd, hpost, ht0, ht1, ht2, ht3]
    simp [List.append_assoc]
  · rintro ⟨pre, c1, c2, w, rcv, mid, post, hcmd, h1, h2, hne, hws, hrcv, hmid⟩
    refine ⟨pre, [c1, c2] ++ w ++ rcv ++ mid ++ '/' :: post,
            by rw [hcmd]; simp [List.append_assoc], ?_⟩
    rw [htoks]
    apply (tokSpec_lits _ _ _).mpr
    refine ⟨[c1, c2], w ++ rcv ++ mid ++ '/' :: post, by simp [List.append_assoc],
            List.Forall₂.cons h1 (List.Forall₂.cons h2 List.Forall₂.nil), ?_⟩
    rw [TokSpec]
    refine ⟨w, rcv ++ mid ++ '/' :: post, by simp [List.append_assoc],
            hne, hws, ?_⟩
    apply (tokSpec_lits _ _ _).mpr
    refine ⟨rcv, mid ++ '/' :: post, by simp [List.append_assoc], hrcv, ?_⟩
    rw [TokSpec]
    refine ⟨mid, '/' :: post, rfl, hmid, ?_⟩
    rw [TokSpec]
    refine ⟨'/', post, rfl, by decide, ?_⟩
    rw [TokSpec]
    trivial

end PreToolUse
